import Mathlib

/-!
Shallow embedding of the piece-table text engine from
src/include/piece_table.h (the std::list / splicable backend), together
with the undo/redo coordinator from src/include/undo_redo_text_buffer.h
and the pieces of src/include/generic_piece_table.h that the claims
reference.

Modelling conventions:
* characters are Lean `Char`, buffers are `List Char`;
* the splicable piece sequence (std::list of Piece) is a `List Node`
  where every node carries a unique identifier; a std::list iterator is
  `Option Nat` (`some id` points at the node with that identifier,
  `none` is the end sentinel).  Splicing preserves node identities, so
  stored iterators stay valid exactly as they do for std::list;
* machine sizes are `Nat` (the C++ uses std::size_t, and every claim
  stays far from overflow);
* C++ code paths that are undefined behaviour (dereferencing the end
  iterator, back() on an empty vector, writing past a buffer) are
  marked in the model: scans report whether they evaluated the loop
  condition at the end sentinel, fallible operations return `Option`.
-/

namespace PieceTableSpec

/-- Piece from piece_table.h: `{start, size, appended_sequence}`. -/
structure Piece where
  start : Nat
  size : Nat
  appended_sequence : Bool
deriving Repr, DecidableEq

/-- One node of the splicable piece sequence (std::list node).  The
`id` models the node address: stable across splices, unique inside a
table. -/
structure Node where
  id : Nat
  piece : Piece
deriving Repr, DecidableEq

/-- A std::list iterator: `some id` for a node, `none` for end(). -/
abbrev Iter := Option Nat

/-- get_part_size from piece_table.h, over nodes. -/
def sumSizes (l : List Node) : Nat := (l.map (fun n => n.piece.size)).sum

/-- get_part_size over plain pieces. -/
def sumSizesP (l : List Piece) : Nat := (l.map (fun p => p.size)).sum

/-- State of PieceTable<OriginalBufferT, AppendBufferT, PieceSequenceT>
with the splicable (std::list) piece sequence.  `next_id` feeds fresh
node identifiers to newly created list nodes. -/
structure PieceTable where
  original_buffer : List Char
  append_buffer : List Char
  pieces : List Node
  size : Nat
  next_id : Nat
deriving Repr, DecidableEq

/-- UndoPack from piece_table.h for the splicable backend: two
persistent iterators and the spliced-out run of nodes. -/
structure UndoPack where
  begin_ : Iter
  end_ : Iter
  data : List Node
deriving Repr, DecidableEq

/-- PieceTable(OriginalBufferT): one piece spanning the original
buffer. -/
def PieceTable.ofBuffer (buf : List Char) : PieceTable :=
  { original_buffer := buf
    append_buffer := []
    pieces := [⟨0, ⟨0, buf.length, false⟩⟩]
    size := buf.length
    next_id := 1 }

/-- PieceTable(): the default constructor. -/
def PieceTable.empty : PieceTable :=
  { original_buffer := [], append_buffer := [], pieces := [], size := 0, next_id := 0 }

/-- is_empty(): `pieces_.empty()`. -/
def PieceTable.is_empty (t : PieceTable) : Bool := t.pieces.isEmpty

/-- Position of an iterator inside the current node list (end maps to
the length).  Used when a stored iterator must be located again, as
std::list splice does through node identity. -/
def iterPos (l : List Node) : Iter → Nat
  | none => l.length
  | some i => l.findIdx (fun n => n.id == i)

/-- Iterator at a given position of the node list (`none` when the
position is past the last node, i.e. end()). -/
def iterAt (l : List Node) (pos : Nat) : Iter :=
  match l[pos]? with
  | some n => some n.id
  | none => none

/-- Fresh nodes wrapping the given pieces, with identifiers counting up
from `startId`. -/
def mkNodes (startId : Nat) : List Piece → List Node
  | [] => []
  | p :: rest => ⟨startId, p⟩ :: mkNodes (startId + 1) rest

/-- getPositionInTable from piece_table.h, positionally: walks the
sequence, stops at the first piece whose size exceeds the remaining
index, and returns (in-piece offset, position of that piece).  When the
index is not inside any piece the position is the sequence length (the
end iterator) and the offset is the leftover index. -/
def getPositionIdx : List Node → Nat → Nat × Nat
  | [], idx => (idx, 0)
  | n :: rest, idx =>
    if idx < n.piece.size then (idx, 0)
    else
      let r := getPositionIdx rest (idx - n.piece.size)
      (r.1, r.2 + 1)

/-- split_piece_at from piece_table.h: the (left, right) pair of pieces
covering the original piece, split at the in-piece offset. -/
def split_piece_at (off : Nat) (p : Piece) : Piece × Piece :=
  (⟨p.start, off, p.appended_sequence⟩,
   ⟨p.start + off, p.size - off, p.appended_sequence⟩)

/-- replace_piece_range_with (splicable branch) at node positions
`i1 ≤ i2`: splice the nodes [i1, i2) out into the record data, insert
fresh nodes for `elems` before the old end-of-range iterator (which now
sits at position i1), and record the begin/end iterators exactly as the
source does (begin is the first inserted node, or end when nothing was
inserted). -/
def PieceTable.replacePieceRangeAt (t : PieceTable) (i1 i2 : Nat)
    (elems : List Piece) : PieceTable × UndoPack :=
  let data := (t.pieces.drop i1).take (i2 - i1)
  let remaining := t.pieces.take i1 ++ t.pieces.drop i2
  let e := iterAt t.pieces i2
  let newNodes := mkNodes t.next_id elems
  let pieces' := remaining.take i1 ++ newNodes ++ remaining.drop i1
  let b : Iter := match newNodes with
    | [] => e
    | n :: _ => some n.id
  ({ t with pieces := pieces', next_id := t.next_id + elems.length },
   ⟨b, e, data⟩)

/-- clear() from piece_table.h: size_ = 0, then replace the whole piece
range with nothing. -/
def PieceTable.clear (t : PieceTable) : PieceTable × UndoPack :=
  PieceTable.replacePieceRangeAt { t with size := 0 } 0 t.pieces.length []

/-- append_range from piece_table.h: append the characters to the
append buffer, insert one new piece at the tail, record an empty-data
pack whose begin iterator is the inserted node. -/
def PieceTable.append_range (t : PieceTable) (range : List Char) :
    PieceTable × UndoPack :=
  let ab := t.append_buffer ++ range
  let new_piece : Piece := ⟨ab.length - range.length, range.length, true⟩
  let node : Node := ⟨t.next_id, new_piece⟩
  ({ t with append_buffer := ab
            pieces := t.pieces ++ [node]
            size := t.size + range.length
            next_id := t.next_id + 1 },
   ⟨some node.id, none, []⟩)

/-- append from piece_table.h: single element form. -/
def PieceTable.append (t : PieceTable) (c : Char) : PieceTable × UndoPack :=
  t.append_range [c]

/-- insert_range_at from piece_table.h.  End position delegates to
append_range; a boundary hit inserts the new piece directly; a
mid-piece hit splits and replaces the one piece with left / new /
right.  The impossible resolver miss (offset nonzero but no piece, ruled
out by the size invariant) falls back to the bare replacement. -/
def PieceTable.insert_range_at (t : PieceTable) (idx : Nat)
    (range : List Char) : PieceTable × UndoPack :=
  if idx = t.size then t.append_range range
  else
    let r := getPositionIdx t.pieces idx
    let off := r.1
    let i := r.2
    let ab := t.append_buffer ++ range
    let new_piece : Piece := ⟨ab.length - range.length, range.length, true⟩
    let t1 := { t with append_buffer := ab, size := t.size + range.length }
    if off = 0 then
      let node : Node := ⟨t1.next_id, new_piece⟩
      ({ t1 with pieces := t1.pieces.take i ++ [node] ++ t1.pieces.drop i
                 next_id := t1.next_id + 1 },
       ⟨some node.id, iterAt t.pieces i, []⟩)
    else
      match t1.pieces[i]? with
      | some n =>
        let sp := split_piece_at off n.piece
        t1.replacePieceRangeAt i (i + 1) [sp.1, new_piece, sp.2]
      | none => t1.replacePieceRangeAt i (i + 1) [new_piece]

/-- insert_at from piece_table.h: single element form. -/
def PieceTable.insert_at (t : PieceTable) (idx : Nat) (c : Char) :
    PieceTable × UndoPack :=
  t.insert_range_at idx [c]

/-- Outcome of the fully-consumed-pieces scan `while (count >=
piece_it->size)` of delete_range_at: how many nodes were consumed, the
remaining count, and whether the loop condition was ever evaluated with
the iterator at end() (which in the C++ dereferences the end
sentinel). -/
structure ScanResult where
  consumed : Nat
  count : Nat
  reads_end : Bool
deriving Repr, DecidableEq

/-- The scan loop of delete_range_at over the remaining node suffix.
When the suffix is exhausted the C++ evaluates `piece_it->size` at the
end sentinel; the model stops there and raises `reads_end`. -/
def consumeLoop : List Node → Nat → ScanResult
  | [], c => ⟨0, c, true⟩
  | n :: rest, c =>
    if n.piece.size ≤ c then
      let r := consumeLoop rest (c - n.piece.size)
      ⟨r.consumed + 1, r.count, r.reads_end⟩
    else ⟨0, c, false⟩

/-- The piece-sequence surgery plan computed by delete_range_at before
it calls replace_piece_range_with: the replaced node span
[range_begin, range_fin), the surviving split fragments that replace
it, and whether the scan loop read the end sentinel. -/
structure DeletePlan where
  range_begin : Nat
  range_fin : Nat
  survivors : List Piece
  reads_end : Bool
deriving Repr, DecidableEq

/-- Control flow of delete_range_at from piece_table.h up to (not
including) the final replace_piece_range_with call.  Mirrors the
source: resolve the start, split off a left cut-border piece when the
start is mid-piece (advancing only when the cut reaches the piece end),
run the consume loop, split off a right cut-border piece when the cut
ends mid-piece.  The resolver / split misses that the preconditions and
the size invariant rule out fall through without a survivor. -/
def delete_plan (l : List Node) (idx count : Nat) : DeletePlan :=
  let r := getPositionIdx l idx
  let off0 := r.1
  let i0 := r.2
  let step1 :=
    if off0 = 0 then (none, count, off0, i0)
    else
      match l[i0]? with
      | some n =>
        let left : Piece := ⟨n.piece.start, off0, n.piece.appended_sequence⟩
        if n.piece.size - off0 ≤ count then
          (some left, count - (n.piece.size - off0), 0, i0 + 1)
        else (some left, count, off0, i0)
      | none => (none, count, off0, i0)
  match step1 with
  | (leftS, count1, off1, start1) =>
    let s := consumeLoop (l.drop start1) count1
    let i2 := start1 + s.consumed
    let step3 :=
      if 0 < s.count then
        match l[i2]? with
        | some n =>
          ((some (split_piece_at (off1 + s.count) n.piece).2 : Option Piece),
           i2 + 1)
        | none => (none, i2)
      else (none, i2)
    { range_begin := i0
      range_fin := step3.2
      survivors := leftS.toList ++ step3.1.toList
      reads_end := s.reads_end }

/-- delete_range_at from piece_table.h: subtract the count from the
size, compute the surgery plan, and replace the consumed node span with
the surviving fragments. -/
def PieceTable.delete_range_at (t : PieceTable) (idx count : Nat) :
    PieceTable × UndoPack :=
  let p := delete_plan t.pieces idx count
  PieceTable.replacePieceRangeAt { t with size := t.size - count }
    p.range_begin p.range_fin p.survivors

/-- delete_at from piece_table.h. -/
def PieceTable.delete_at (t : PieceTable) (idx : Nat) : PieceTable × UndoPack :=
  t.delete_range_at idx 1

/-- undo from piece_table.h, splicable branch: splice the current
[begin, end) span out as the redo data, splice the pack data back in
before the old end iterator, and fix the size by the difference of the
two data lengths.  The redo begin iterator is the head of the spliced-in
data, or the old end when that data is empty, exactly as the source
comments explain. -/
def PieceTable.undo (t : PieceTable) (u : UndoPack) : PieceTable × UndoPack :=
  let undo_length := sumSizes u.data
  let i1 := iterPos t.pieces u.begin_
  let i2 := iterPos t.pieces u.end_
  let rdata := (t.pieces.drop i1).take (i2 - i1)
  let remaining := t.pieces.take i1 ++ t.pieces.drop i2
  let rbegin : Iter := match u.data with
    | [] => u.end_
    | n :: _ => some n.id
  let j := iterPos remaining u.end_
  let pieces' := remaining.take j ++ u.data ++ remaining.drop j
  ({ t with pieces := pieces', size := t.size + undo_length - sumSizes rdata },
   ⟨rbegin, u.end_, rdata⟩)

/-- Characters a piece denotes, read from its tagged backing buffer
(copy_data_to_span reads `buffer[start, start + size)`). -/
def Piece.content (t : PieceTable) (p : Piece) : List Char :=
  if p.appended_sequence then (t.append_buffer.drop p.start).take p.size
  else (t.original_buffer.drop p.start).take p.size

/-- The character sequence copy_data_to_span writes out: every piece in
order. -/
def PieceTable.content (t : PieceTable) : List Char :=
  (t.pieces.map (fun n => Piece.content t n.piece)).flatten

/-- to_string() from piece_table.h: a buffer of size() null characters
overwritten left to right by the piece contents.  Writing more than
size() characters runs past the allocation (undefined behaviour),
modelled as `none`. -/
def PieceTable.to_string (t : PieceTable) : Option (List Char) :=
  if t.content.length ≤ t.size then
    some (t.content ++ List.replicate (t.size - t.content.length) '\x00')
  else none

/-! State of the PieceTable of src/include/generic_piece_table.h (the
older prototype header), as far as the claims need it. -/

/-- PieceTable state from generic_piece_table.h: two buffers, the block
sequence and the size. -/
structure GenericPieceTable where
  original_buffer : List Char
  append_buffer : List Char
  blocks : List Piece
  size : Nat
deriving Repr, DecidableEq

/-- clear() from generic_piece_table.h: clears the original buffer, the
append buffer and the block sequence, and zeroes the size. -/
def GenericPieceTable.clear (_t : GenericPieceTable) : GenericPieceTable :=
  { original_buffer := [], append_buffer := [], blocks := [], size := 0 }

/-! The non-splicable (random-access, e.g. std::vector) backend of
piece_table.h.  For that instantiation piece_sequence_index is a plain
index, so the record stores two indices and copied-out pieces. -/

/-- UndoPack of the non-splicable PieceTable instantiation: integer
begin/end indices and the copied-out piece run. -/
structure VUndoPack where
  begin_ : Nat
  end_ : Nat
  data : List Piece
deriving Repr, DecidableEq

/-- undo from piece_table.h, non-splicable branch, as written: the
branch executes `redo = replace_piece_range_with(redo.begin, redo.end,
redo.data)` on the just default-constructed record `redo` instead of on
the fields of the record `undo` being applied.  As C++ the statement is
ill-formed (the integer fields do not convert to the iterators the
helper expects, and the helper itself calls a four-argument
vector::insert that does not exist); this model reads the
default-constructed fields as value-initialized (0, 0, empty), which
makes the replacement the empty surgery [0, 0) ↦ [] and leaves the
piece sequence untouched while the final size update still adds the
full length of the record being undone. -/
def PieceTable.undoVec (t : PieceTable) (u : VUndoPack) :
    PieceTable × VUndoPack :=
  let undo_length := sumSizesP u.data
  let redo : VUndoPack := ⟨0, 0, []⟩
  ({ t with size := t.size + undo_length - sumSizesP redo.data }, redo)

/-! UndoRedoTextBuffer from src/include/undo_redo_text_buffer.h: the
undo/redo coordinator over the splicable PieceTable.  push_back puts a
record at the tail of a stack, back()/pop_back() take it from the
tail. -/

/-- UndoRedoTextBuffer state: the two record stacks (tail = top) and
the owned piece table. -/
structure UndoRedoTextBuffer where
  undo_stack : List UndoPack
  redo_stack : List UndoPack
  piece_table : PieceTable
deriving Repr, DecidableEq

/-- A freshly constructed UndoRedoTextBuffer. -/
def UndoRedoTextBuffer.init : UndoRedoTextBuffer :=
  ⟨[], [], PieceTable.empty⟩

/-- new_operation from undo_redo_text_buffer.h: clear the redo stack,
push the fresh record on the undo stack. -/
def UndoRedoTextBuffer.new_operation (b : UndoRedoTextBuffer)
    (p : UndoPack) : UndoRedoTextBuffer :=
  { b with redo_stack := [], undo_stack := b.undo_stack ++ [p] }

/-- The mutating operations UndoRedoTextBuffer forwards to the piece
table through new_operation. -/
inductive BufOp where
  | clear : BufOp
  | insert_range_at : Nat → List Char → BufOp
  | append_range : List Char → BufOp
  | delete_range_at : Nat → Nat → BufOp
deriving Repr, DecidableEq

/-- clear / insert_range_at / append_range / delete_range_at from
undo_redo_text_buffer.h: run the piece-table operation and hand its
record to new_operation. -/
def UndoRedoTextBuffer.applyOp (b : UndoRedoTextBuffer) :
    BufOp → UndoRedoTextBuffer
  | .clear =>
    let r := b.piece_table.clear
    { b.new_operation r.2 with piece_table := r.1 }
  | .insert_range_at idx range =>
    let r := b.piece_table.insert_range_at idx range
    { b.new_operation r.2 with piece_table := r.1 }
  | .append_range range =>
    let r := b.piece_table.append_range range
    { b.new_operation r.2 with piece_table := r.1 }
  | .delete_range_at idx count =>
    let r := b.piece_table.delete_range_at idx count
    { b.new_operation r.2 with piece_table := r.1 }

/-- undo() from undo_redo_text_buffer.h: `undo_stack_.back()` then
pop_back, then apply through the piece table and push the produced
record on the redo stack.  The source performs back()/pop_back()
without any emptiness check and the class has no member that exposes
the stacks, so on an empty undo stack the calls read and erase past the
vector (undefined behaviour): `none` marks that unchecked access. -/
def UndoRedoTextBuffer.undo (b : UndoRedoTextBuffer) :
    Option UndoRedoTextBuffer :=
  match b.undo_stack.getLast? with
  | none => none
  | some pack =>
    let r := b.piece_table.undo pack
    some { undo_stack := b.undo_stack.dropLast
           redo_stack := b.redo_stack ++ [r.2]
           piece_table := r.1 }

/-- redo() from undo_redo_text_buffer.h, the mirror of undo():
unchecked back()/pop_back() on the redo stack (`none` on an empty
stack), apply, push the produced record on the undo stack. -/
def UndoRedoTextBuffer.redo (b : UndoRedoTextBuffer) :
    Option UndoRedoTextBuffer :=
  match b.redo_stack.getLast? with
  | none => none
  | some pack =>
    let r := b.piece_table.undo pack
    some { undo_stack := b.undo_stack ++ [r.2]
           redo_stack := b.redo_stack.dropLast
           piece_table := r.1 }

/-! Every mutating entry point of the splicable PieceTable, as one
inductive, for the frame properties quantified over all operations. -/

/-- The mutating operations of PieceTable (piece_table.h). -/
inductive PTOp where
  | clear : PTOp
  | insert_at : Nat → Char → PTOp
  | insert_range_at : Nat → List Char → PTOp
  | append : Char → PTOp
  | append_range : List Char → PTOp
  | delete_at : Nat → PTOp
  | delete_range_at : Nat → Nat → PTOp
  | undo : UndoPack → PTOp
deriving Repr, DecidableEq

/-- Apply a PieceTable operation, keeping the resulting table. -/
def PieceTable.applyOp (t : PieceTable) : PTOp → PieceTable
  | .clear => t.clear.1
  | .insert_at idx c => (t.insert_at idx c).1
  | .insert_range_at idx r => (t.insert_range_at idx r).1
  | .append c => (t.append c).1
  | .append_range r => (t.append_range r).1
  | .delete_at idx => (t.delete_at idx).1
  | .delete_range_at idx count => (t.delete_range_at idx count).1
  | .undo u => (t.undo u).1

/-! Piece-boundary positions, for the boundary-split claim.  A logical
position is a piece boundary when it is the total size of some prefix
of the piece sequence. -/

/-- All prefix sums of the piece sizes: position 0, and every
cumulative size. -/
def prefixSums : List Node → List Nat
  | [] => [0]
  | n :: rest => 0 :: (prefixSums rest).map (fun s => n.piece.size + s)

/-! Concrete states used by the evaluation theorems. -/

/-- PieceTable("ab"): one original piece of two characters. -/
def tAB : PieceTable := PieceTable.ofBuffer ['a', 'b']

/-- tAB after delete_range_at(1, 0): a zero-length deletion starting
strictly inside the single piece. -/
def tABdel : PieceTable × UndoPack := tAB.delete_range_at 1 0

/-- tAB after append_range("c"). -/
def tABC : PieceTable × UndoPack := tAB.append_range ['c']

/-- A generic_piece_table.h table holding one original and one appended
character. -/
def g0 : GenericPieceTable :=
  ⟨['a'], ['b'], [⟨0, 1, false⟩, ⟨0, 1, true⟩], 2⟩

end PieceTableSpec

namespace PieceTableSpec

/-! Auxiliary lemmas about the sums of piece sizes, the position
resolver, the consume loop and the piece surgery. -/

theorem sumSizes_append (a b : List Node) :
    sumSizes (a ++ b) = sumSizes a + sumSizes b := by
  simp [sumSizes]

theorem sumSizes_take_succ (l : List Node) (i : Nat) (n : Node)
    (h : l[i]? = some n) :
    sumSizes (l.take (i + 1)) = sumSizes (l.take i) + n.piece.size := by
  rw [List.take_succ, sumSizes_append, h]
  simp [sumSizes]

theorem sumSizes_take_mono (l : List Node) {m m' : Nat} (h : m ≤ m') :
    sumSizes (l.take m) ≤ sumSizes (l.take m') := by
  have hd : l.take m' = l.take m ++ (l.drop m).take (m' - m) := by
    rw [← List.take_add]
    congr 1
    omega
  rw [hd, sumSizes_append]
  omega

theorem sumSizes_take_add_drop (l : List Node) (j : Nat) :
    sumSizes (l.take j) + sumSizes (l.drop j) = sumSizes l := by
  rw [← sumSizes_append, List.take_append_drop]

theorem getPositionIdx_le_length (l : List Node) (idx : Nat) :
    (getPositionIdx l idx).2 ≤ l.length := by
  induction l generalizing idx with
  | nil => simp [getPositionIdx]
  | cons n rest ih =>
    simp only [getPositionIdx]
    split
    · simp
    · simpa using Nat.succ_le_succ (ih (idx - n.piece.size))

theorem getPositionIdx_sum (l : List Node) (idx : Nat) :
    sumSizes (l.take (getPositionIdx l idx).2) + (getPositionIdx l idx).1
      = idx := by
  induction l generalizing idx with
  | nil => simp [getPositionIdx, sumSizes]
  | cons n rest ih =>
    simp only [getPositionIdx]
    split
    · simp [sumSizes]
    · rename_i hge
      have hih := ih (idx - n.piece.size)
      simp only [List.take_succ_cons, sumSizes, List.map_cons, List.sum_cons]
        at hih ⊢
      omega

theorem getPositionIdx_get (l : List Node) (idx : Nat)
    (h : idx < sumSizes l) :
    ∃ n, l[(getPositionIdx l idx).2]? = some n ∧
      (getPositionIdx l idx).1 < n.piece.size := by
  induction l generalizing idx with
  | nil => simp [sumSizes] at h
  | cons m rest ih =>
    simp only [getPositionIdx]
    split
    · exact ⟨m, by simp, by assumption⟩
    · rename_i hge
      have hsum : idx - m.piece.size < sumSizes rest := by
        simp only [sumSizes, List.map_cons, List.sum_cons] at h ⊢
        omega
      obtain ⟨n, hn, ho⟩ := ih (idx - m.piece.size) hsum
      exact ⟨n, by simpa using hn, ho⟩

theorem zero_mem_prefixSums (l : List Node) : 0 ∈ prefixSums l := by
  cases l <;> simp [prefixSums]

theorem mem_prefixSums_iff (l : List Node) (p : Nat) :
    p ∈ prefixSums l ↔ ∃ m, m ≤ l.length ∧ sumSizes (l.take m) = p := by
  induction l generalizing p with
  | nil =>
    simp only [prefixSums, List.mem_singleton, List.length_nil]
    constructor
    · rintro rfl
      exact ⟨0, Nat.le_refl 0, rfl⟩
    · rintro ⟨m, hm, hs⟩
      interval_cases m
      exact hs.symm
  | cons n rest ih =>
    simp only [prefixSums, List.mem_cons, List.mem_map, List.length_cons]
    constructor
    · rintro (rfl | ⟨s, hs, rfl⟩)
      · exact ⟨0, Nat.zero_le _, rfl⟩
      · obtain ⟨m, hm, hsum⟩ := (ih s).1 hs
        refine ⟨m + 1, by omega, ?_⟩
        simp only [List.take_succ_cons, sumSizes, List.map_cons, List.sum_cons]
          at hsum ⊢
        omega
    · rintro ⟨m, hm, hsum⟩
      cases m with
      | zero => left; exact hsum.symm
      | succ m' =>
        right
        refine ⟨sumSizes (rest.take m'), (ih _).2 ⟨m', by omega, rfl⟩, ?_⟩
        simp only [List.take_succ_cons, sumSizes, List.map_cons, List.sum_cons]
          at hsum ⊢
        omega

theorem prefixSums_shift (l : List Node) (j c : Nat) (hj : j ≤ l.length) :
    (sumSizes (l.take j) + c ∈ prefixSums l ↔ c ∈ prefixSums (l.drop j)) := by
  rw [mem_prefixSums_iff, mem_prefixSums_iff]
  constructor
  · rintro ⟨m, hm, hs⟩
    by_cases hmj : m ≤ j
    · have h1 := sumSizes_take_mono l hmj
      have hc0 : c = 0 := by omega
      subst hc0
      exact ⟨0, Nat.zero_le _, rfl⟩
    · refine ⟨m - j, by simp; omega, ?_⟩
      have hdecomp : l.take m = l.take j ++ (l.drop j).take (m - j) := by
        rw [← List.take_add]
        congr 1
        omega
      rw [hdecomp, sumSizes_append] at hs
      omega
  · rintro ⟨m, hm, hs⟩
    simp only [List.length_drop] at hm
    refine ⟨j + m, by omega, ?_⟩
    rw [List.take_add, sumSizes_append, hs]

theorem getPositionIdx_zero_iff (l : List Node) (idx : Nat)
    (h : idx ≤ sumSizes l) :
    ((getPositionIdx l idx).1 = 0 ↔ idx ∈ prefixSums l) := by
  induction l generalizing idx with
  | nil =>
    simp only [sumSizes, List.map_nil, List.sum_nil, Nat.le_zero] at h
    subst h
    simp [getPositionIdx, prefixSums]
  | cons n rest ih =>
    simp only [getPositionIdx]
    split
    · rename_i hlt
      simp only [prefixSums, List.mem_cons, List.mem_map]
      constructor
      · rintro rfl
        exact Or.inl rfl
      · rintro (rfl | ⟨s, hs, hsum⟩)
        · rfl
        · omega
    · rename_i hge
      have hrest : idx - n.piece.size ≤ sumSizes rest := by
        simp only [sumSizes, List.map_cons, List.sum_cons] at h ⊢
        omega
      have hih := ih (idx - n.piece.size) hrest
      simp only [prefixSums, List.mem_cons, List.mem_map]
      constructor
      · intro h0
        right
        exact ⟨idx - n.piece.size, hih.1 h0, by omega⟩
      · rintro (rfl | ⟨s, hs, hsum⟩)
        · have hz : n.piece.size = 0 := by omega
          refine hih.2 ?_
          rw [hz]
          simpa using zero_mem_prefixSums rest
        · refine hih.2 ?_
          have : idx - n.piece.size = s := by omega
          rwa [this]

theorem consumeLoop_count_eq_zero_iff (l : List Node) (c : Nat) :
    ((consumeLoop l c).count = 0 ↔ c ∈ prefixSums l) := by
  induction l generalizing c with
  | nil => simp [consumeLoop, prefixSums]
  | cons n rest ih =>
    simp only [consumeLoop]
    split
    · rename_i hle
      simp only [prefixSums, List.mem_cons, List.mem_map]
      rw [ih]
      constructor
      · intro hm
        right
        exact ⟨c - n.piece.size, hm, by omega⟩
      · rintro (rfl | ⟨s, hs, hsum⟩)
        · have hz : n.piece.size = 0 := by omega
          rw [hz]
          simpa using zero_mem_prefixSums rest
        · have : c - n.piece.size = s := by omega
          rwa [this]
    · rename_i hgt
      simp only [prefixSums, List.mem_cons, List.mem_map]
      constructor
      · rintro rfl
        exact Or.inl rfl
      · rintro (rfl | ⟨s, hs, hsum⟩)
        · rfl
        · omega

theorem consumeLoop_stop (l : List Node) (c : Nat) (h : c ≤ sumSizes l) :
    (consumeLoop l c).count = 0 ∨
    ∃ n, l[(consumeLoop l c).consumed]? = some n ∧
      (consumeLoop l c).count < n.piece.size := by
  induction l generalizing c with
  | nil =>
    left
    simp only [sumSizes, List.map_nil, List.sum_nil, Nat.le_zero] at h
    simp [consumeLoop, h]
  | cons n rest ih =>
    simp only [consumeLoop]
    split
    · rename_i hle
      have h' : c - n.piece.size ≤ sumSizes rest := by
        simp only [sumSizes, List.map_cons, List.sum_cons] at h ⊢
        omega
      rcases ih (c - n.piece.size) h' with h0 | ⟨m, hm, ho⟩
      · exact Or.inl h0
      · exact Or.inr ⟨m, by simpa using hm, ho⟩
    · rename_i hgt
      refine Or.inr ⟨n, by simp, ?_⟩
      simp only []
      omega

theorem mem_mkNodes {k : Nat} {ps : List Piece} {n : Node}
    (h : n ∈ mkNodes k ps) : n.piece ∈ ps := by
  induction ps generalizing k with
  | nil => simp [mkNodes] at h
  | cons p rest ih =>
    simp only [mkNodes, List.mem_cons] at h
    rcases h with rfl | h
    · exact List.mem_cons_self _ _
    · exact List.mem_cons_of_mem _ (ih h)

theorem length_mkNodes (k : Nat) (ps : List Piece) :
    (mkNodes k ps).length = ps.length := by
  induction ps generalizing k with
  | nil => rfl
  | cons p rest ih => simp [mkNodes, ih]

theorem replacePieceRangeAt_pieces (t : PieceTable) (i1 i2 : Nat)
    (elems : List Piece) (h : i1 ≤ t.pieces.length) :
    ((t.replacePieceRangeAt i1 i2 elems).1).pieces
      = t.pieces.take i1 ++ mkNodes t.next_id elems ++ t.pieces.drop i2 := by
  have hlen : (t.pieces.take i1).length = i1 := by
    simp
    omega
  show (t.pieces.take i1 ++ t.pieces.drop i2).take i1
      ++ mkNodes t.next_id elems
      ++ (t.pieces.take i1 ++ t.pieces.drop i2).drop i1 = _
  rw [List.take_left' hlen, List.drop_left' hlen]

theorem lt_length_of_getElem?_some {l : List Node} {i : Nat} {n : Node}
    (h : l[i]? = some n) : i < l.length := by
  by_contra hge
  rw [List.getElem?_eq_none (by omega)] at h
  exact Option.noConfusion h

/-- Characterization of the delete_range_at surgery plan under the
preconditions: every surviving fragment has positive size, and the
number of survivors is exactly one per range end that does not fall on
a piece boundary. -/
theorem delete_plan_spec (l : List Node) (idx count : Nat)
    (hc : 0 < count) (hle : idx + count ≤ sumSizes l) :
    (∀ p ∈ (delete_plan l idx count).survivors, 0 < p.size) ∧
    (delete_plan l idx count).survivors.length
      = (if idx ∈ prefixSums l then 0 else 1)
        + (if idx + count ∈ prefixSums l then 0 else 1) := by
  have hidxle : idx ≤ sumSizes l := by omega
  have hzero := getPositionIdx_zero_iff l idx hidxle
  have hsum0 := getPositionIdx_sum l idx
  have hi0 := getPositionIdx_le_length l idx
  by_cases hoff : (getPositionIdx l idx).1 = 0
  · -- the deletion starts on a piece boundary: no left survivor
    have hbid : idx ∈ prefixSums l := hzero.1 hoff
    rw [if_pos hbid]
    have htd := sumSizes_take_add_drop l (getPositionIdx l idx).2
    have hcle : count ≤ sumSizes (l.drop (getPositionIdx l idx).2) := by
      omega
    have hshift := prefixSums_shift l (getPositionIdx l idx).2 count hi0
    have hloopz :=
      consumeLoop_count_eq_zero_iff (l.drop (getPositionIdx l idx).2) count
    have hend : (idx + count ∈ prefixSums l ↔
        (consumeLoop (l.drop (getPositionIdx l idx).2) count).count = 0) := by
      rw [hloopz, ← hshift]
      constructor
      · intro h
        have : sumSizes (l.take (getPositionIdx l idx).2) + count
            = idx + count := by omega
        rwa [this]
      · intro h
        have : sumSizes (l.take (getPositionIdx l idx).2) + count
            = idx + count := by omega
        rwa [this] at h
    simp only [delete_plan, if_pos hoff]
    by_cases hc2 : 0 < (consumeLoop (l.drop (getPositionIdx l idx).2) count).count
    · -- the deletion ends mid-piece: exactly the right survivor
      have hnend : idx + count ∉ prefixSums l := by
        intro h
        have := hend.1 h
        omega
      rw [if_neg hnend]
      rcases consumeLoop_stop (l.drop (getPositionIdx l idx).2) count hcle with
        h0 | ⟨m, hm, hlt⟩
      · omega
      · rw [List.getElem?_drop] at hm
        rw [if_pos hc2, hm]
        refine ⟨?_, by simp⟩
        intro p hp
        simp only [Option.toList_none, Option.toList_some, List.nil_append,
          List.mem_singleton] at hp
        subst hp
        simp only [split_piece_at]
        omega
    · -- the deletion ends on a boundary too: no survivors at all
      have hendb : idx + count ∈ prefixSums l := hend.2 (by omega)
      rw [if_pos hendb, if_neg hc2]
      simp
  · -- the deletion starts strictly inside a piece: a left survivor
    have hbid : idx ∉ prefixSums l := fun h => hoff (hzero.2 h)
    rw [if_neg hbid]
    have hidxlt : idx < sumSizes l := by omega
    obtain ⟨n, hn, hofflt⟩ := getPositionIdx_get l idx hidxlt
    have hi0lt := lt_length_of_getElem?_some hn
    have hsucc := sumSizes_take_succ l (getPositionIdx l idx).2 n hn
    simp only [delete_plan, if_neg hoff]
    rw [hn]
    dsimp only
    by_cases hadv : n.piece.size - (getPositionIdx l idx).1 ≤ count
    · -- the cut reaches the end of the start piece: move to the next
      rw [if_pos hadv]
      have htd := sumSizes_take_add_drop l ((getPositionIdx l idx).2 + 1)
      have hkey : sumSizes (l.take ((getPositionIdx l idx).2 + 1))
          + (count - (n.piece.size - (getPositionIdx l idx).1))
          = idx + count := by omega
      have hc1le : count - (n.piece.size - (getPositionIdx l idx).1)
          ≤ sumSizes (l.drop ((getPositionIdx l idx).2 + 1)) := by omega
      have hshift := prefixSums_shift l ((getPositionIdx l idx).2 + 1)
        (count - (n.piece.size - (getPositionIdx l idx).1)) (by omega)
      have hloopz := consumeLoop_count_eq_zero_iff
        (l.drop ((getPositionIdx l idx).2 + 1))
        (count - (n.piece.size - (getPositionIdx l idx).1))
      have hend : (idx + count ∈ prefixSums l ↔
          (consumeLoop (l.drop ((getPositionIdx l idx).2 + 1))
            (count - (n.piece.size - (getPositionIdx l idx).1))).count
            = 0) := by
        rw [hloopz, ← hshift, hkey]
      by_cases hc2 : 0 < (consumeLoop (l.drop ((getPositionIdx l idx).2 + 1))
          (count - (n.piece.size - (getPositionIdx l idx).1))).count
      · have hnend : idx + count ∉ prefixSums l := by
          intro h
          have := hend.1 h
          omega
        rw [if_neg hnend]
        rcases consumeLoop_stop (l.drop ((getPositionIdx l idx).2 + 1))
            (count - (n.piece.size - (getPositionIdx l idx).1)) hc1le with
          h0 | ⟨m, hm, hlt⟩
        · omega
        · rw [List.getElem?_drop] at hm
          rw [if_pos hc2, hm]
          refine ⟨?_, by simp⟩
          intro p hp
          simp only [Option.toList_some, List.mem_append, List.mem_singleton]
            at hp
          rcases hp with hp | hp <;> subst hp <;> simp only [split_piece_at]
            <;> omega
      · have hendb : idx + count ∈ prefixSums l := hend.2 (by omega)
        rw [if_pos hendb, if_neg hc2]
        refine ⟨?_, by simp⟩
        intro p hp
        simp only [Option.toList_some, Option.toList_none, List.append_nil,
          List.mem_singleton] at hp
        subst hp
        simp only [split_piece_at]
        omega
    · -- the whole cut stays inside the start piece: both survivors
      rw [if_neg hadv]
      have hgetl : l[(getPositionIdx l idx).2] = n := by
        have := List.getElem?_eq_getElem hi0lt
        rw [this] at hn
        exact Option.some.inj hn
      have hdrop : l.drop (getPositionIdx l idx).2
          = n :: l.drop ((getPositionIdx l idx).2 + 1) := by
        rw [List.drop_eq_getElem_cons hi0lt, hgetl]
      have hs : consumeLoop (l.drop (getPositionIdx l idx).2) count
          = ⟨0, count, false⟩ := by
        rw [hdrop]
        simp only [consumeLoop]
        rw [if_neg (by omega)]
      rw [hs]
      have hnend : idx + count ∉ prefixSums l := by
        rw [mem_prefixSums_iff]
        rintro ⟨m, hm, hsm⟩
        by_cases hmle : m ≤ (getPositionIdx l idx).2
        · have := sumSizes_take_mono l hmle
          omega
        · have h2 := sumSizes_take_mono l
            (show (getPositionIdx l idx).2 + 1 ≤ m by omega)
          omega
      rw [if_neg hnend, if_pos hc]
      have hadd : (getPositionIdx l idx).2 + 0 = (getPositionIdx l idx).2 :=
        Nat.add_zero _
      rw [hadd, hn]
      refine ⟨?_, by simp⟩
      intro p hp
      simp only [Option.toList_some, List.mem_append, List.mem_singleton] at hp
      rcases hp with hp | hp <;> subst hp <;> simp only [split_piece_at]
        <;> omega

/-! Theorems for the claims. -/

/-- C1: the undo/redo inverse law fails on the code.  For the single
mutating operation delete_range_at(1, 0) on PieceTable("ab") — its
precondition 1 + 0 ≤ size() = 2 holds — the operation leaves size() =
2, but applying undo to the record it returned drops size() to 1
instead of restoring the pre-operation value 2, and to_string() after
the undo is the out-of-bounds marker (the piece contents are two
characters while size() says one) instead of the pre-operation
"ab". -/
theorem c1_undo_inverse_law_fails_eval :
    tAB.size = 2 ∧ 1 + 0 ≤ tAB.size ∧
    tAB.to_string = some ['a', 'b'] ∧
    tABdel.1.size = 2 ∧
    (tABdel.1.undo tABdel.2).1.size = 1 ∧
    (tABdel.1.undo tABdel.2).1.to_string = none := by
  decide

/-- C2: the size invariant fails on the code.  After the
precondition-satisfying call delete_range_at(1, 0) on PieceTable("ab"),
size() is still 2 but the piece lengths sum to 3 (a duplicate left
split of the piece was spliced in), and to_string() would write three
characters into its two-character allocation (modelled as `none`). -/
theorem c2_size_invariant_broken_eval :
    1 + 0 ≤ tAB.size ∧
    tABdel.1.size = 2 ∧
    sumSizes tABdel.1.pieces = 3 ∧
    tABdel.1.content.length = 3 ∧
    tABdel.1.to_string = none := by
  decide

/-- C3: zero-length deletions are not always no-ops.  On
PieceTable("ab"), delete_range_at(1, 0) — index 1 strictly inside the
only piece — changes the piece sequence from one piece to two (the
left split {start 0, size 1} is inserted without anything being
removed) and the document content from "ab" to "aab", while size()
stays 2; the operation is a no-op only when the index lies on a piece
boundary, as the zero-length boundary deletion delete_range_at(0, 0)
shows. -/
theorem c3_zero_length_delete_not_noop_eval :
    tAB.content = ['a', 'b'] ∧
    tABdel.1.content = ['a', 'a', 'b'] ∧
    tABdel.1.size = tAB.size ∧
    tABdel.1.pieces.length = 2 ∧
    (tAB.delete_range_at 0 0).1 = tAB := by
  decide

/-- C4 counterexample: clear() of generic_piece_table.h erases both
backing buffers, so the claim quantified over every operation of the
repository (its sources name that clear) is false: the prior append
buffer ['b'] is not a prefix of the new append buffer [] and the
original buffer does not survive either. -/
theorem c4_generic_clear_shrinks_buffers :
    g0.clear.original_buffer ≠ g0.original_buffer ∧
    ¬ g0.append_buffer <+: g0.clear.append_buffer := by
  constructor
  · decide
  · intro h
    have hlen := h.length_le
    simp [g0, GenericPieceTable.clear] at hlen

/-- C4 amended: for the engine of piece_table.h the frame property does
hold over every operation, undo and clear included: the original buffer
is untouched and the prior append buffer is a prefix of the new one;
only the piece sequence and size change. -/
theorem c4_piece_table_buffers_append_only (t : PieceTable) (o : PTOp) :
    (t.applyOp o).original_buffer = t.original_buffer ∧
    t.append_buffer <+: (t.applyOp o).append_buffer := by
  cases o with
  | clear => exact ⟨rfl, List.prefix_rfl⟩
  | insert_at idx c =>
    show (t.insert_range_at idx [c]).1.original_buffer = _ ∧ _ <+:
      (t.insert_range_at idx [c]).1.append_buffer
    unfold PieceTable.insert_range_at
    split
    · exact ⟨rfl, List.prefix_append _ _⟩
    · dsimp only
      split
      · exact ⟨rfl, List.prefix_append _ _⟩
      · split <;> exact ⟨rfl, List.prefix_append _ _⟩
  | insert_range_at idx r =>
    show (t.insert_range_at idx r).1.original_buffer = _ ∧ _ <+:
      (t.insert_range_at idx r).1.append_buffer
    unfold PieceTable.insert_range_at
    split
    · exact ⟨rfl, List.prefix_append _ _⟩
    · dsimp only
      split
      · exact ⟨rfl, List.prefix_append _ _⟩
      · split <;> exact ⟨rfl, List.prefix_append _ _⟩
  | append c => exact ⟨rfl, List.prefix_append _ _⟩
  | append_range r => exact ⟨rfl, List.prefix_append _ _⟩
  | delete_at idx => exact ⟨rfl, List.prefix_rfl⟩
  | delete_range_at idx count => exact ⟨rfl, List.prefix_rfl⟩
  | undo u => exact ⟨rfl, List.prefix_rfl⟩

/-- C6: a deletion extending exactly to the document end does read the
end-of-sequence position.  On PieceTable("ab"), delete_range_at(0, 2)
satisfies its precondition 0 + 2 ≤ size() = 2, yet the
fully-consumed-pieces scan evaluates `count >= piece_it->size` with
piece_it at end() (dereferencing the list end sentinel), while a
deletion that stops before the end, delete_range_at(0, 1), never
does. -/
theorem c6_delete_to_end_reads_end_sentinel_eval :
    0 + 2 ≤ tAB.size ∧
    (delete_plan tAB.pieces 0 2).reads_end = true ∧
    (delete_plan tAB.pieces 0 1).reads_end = false := by
  decide

/-- C7: undo() and redo() on the respective empty stack are silent
undefined behaviour, not a checkable or reported failure.  On a freshly
constructed UndoRedoTextBuffer both stacks are empty and both calls
perform back()/pop_back() on an empty std::vector (the `none` of the
model); the class exposes no stack-emptiness query and reports
nothing. -/
theorem c7_undo_redo_on_empty_stack_unchecked_eval :
    UndoRedoTextBuffer.init.undo_stack = [] ∧
    UndoRedoTextBuffer.init.redo_stack = [] ∧
    UndoRedoTextBuffer.init.undo = none ∧
    UndoRedoTextBuffer.init.redo = none := by
  decide

/-- C8: every mutating operation of UndoRedoTextBuffer (clear,
insert_range_at, append_range, delete_range_at) goes through
new_operation, which clears the redo stack; a redo() right after any
such operation therefore finds an empty stack and is the precondition
failure (the unchecked empty-vector access, `none`), never a replay of
the discarded future. -/
theorem c8_mutating_op_clears_redo_stack (b : UndoRedoTextBuffer)
    (o : BufOp) :
    (b.applyOp o).redo_stack = [] ∧ (b.applyOp o).redo = none := by
  cases o <;>
    simp [UndoRedoTextBuffer.applyOp, UndoRedoTextBuffer.new_operation,
      UndoRedoTextBuffer.redo]

/-- C9: the backends do not agree.  For the list (splicable) backend,
undo of the append_range("c") record on PieceTable("ab") restores
content "ab" and size 2; the non-splicable (vector) branch of undo —
which as written applies replace_piece_range_with to its own
default-constructed record rather than to the record being undone, and
does not even compile for a vector piece sequence — leaves the pieces
untouched and size 3, so the two instantiations differ at this very
step. -/
theorem c9_vector_backend_undo_diverges_eval :
    (tABC.1.undo tABC.2).1.content = ['a', 'b'] ∧
    (tABC.1.undo tABC.2).1.size = 2 ∧
    (tABC.1.undoVec ⟨1, 2, []⟩).1.content = ['a', 'b', 'c'] ∧
    (tABC.1.undoVec ⟨1, 2, []⟩).1.size = 3 := by
  decide

/-- C10 counterexample: append_range of an empty range on an empty
table creates a zero-length piece, after which size() = 0 while
is_empty() is false — so is_empty() is not equivalent to size() == 0
on states the claim itself names. -/
theorem c10_is_empty_not_iff_size_zero :
    (PieceTable.empty.append_range []).1.size = 0 ∧
    (PieceTable.empty.append_range []).1.is_empty = false := by
  decide

/-- C10 amended: is_empty() only implies size() == 0 (on any state
satisfying the size invariant size() = sum of piece lengths); the
converse fails because appending or inserting an empty range leaves a
zero-length piece, making size() = 0 with is_empty() = false. -/
theorem c10_is_empty_implies_size_zero (t : PieceTable)
    (hsz : t.size = sumSizes t.pieces) (h : t.is_empty = true) :
    t.size = 0 := by
  have hp : t.pieces = [] := by
    simpa [PieceTable.is_empty, List.isEmpty_iff] using h
  rw [hsz, hp]
  rfl

/-- Witness for the C10 amended theorem at the default-constructed
table. -/
theorem c10_is_empty_implies_size_zero_witness :
    (PieceTable.empty.size = sumSizes PieceTable.empty.pieces ∧
      PieceTable.empty.is_empty = true) ∧
    PieceTable.empty.size = 0 :=
  ⟨⟨rfl, rfl⟩, c10_is_empty_implies_size_zero PieceTable.empty rfl rfl⟩

/-- C5: boundary split correctness.  On a table whose pieces all have
positive length and whose size invariant holds: a non-empty
insert_range_at never introduces a zero-length piece (at a boundary it
inserts the one new piece, and strictly inside a piece the replaced
span leaves exactly the two surviving fragments, growing the sequence
by exactly two); a non-zero delete_range_at never introduces a
zero-length piece, and the replaced span leaves exactly one surviving
fragment per range end that falls strictly inside a piece — 0, 1 or 2
survivors. -/
theorem c5_boundary_split_correctness (t : PieceTable) (idx count : Nat)
    (range : List Char)
    (hpos : ∀ n ∈ t.pieces, 0 < n.piece.size)
    (hsz : t.size = sumSizes t.pieces) :
    (range ≠ [] → idx ≤ t.size →
      (∀ n ∈ (t.insert_range_at idx range).1.pieces, 0 < n.piece.size) ∧
      (idx < t.size → idx ∉ prefixSums t.pieces →
        (t.insert_range_at idx range).1.pieces.length
          = t.pieces.length + 2)) ∧
    (0 < count → idx + count ≤ t.size →
      (∀ n ∈ (t.delete_range_at idx count).1.pieces, 0 < n.piece.size) ∧
      (delete_plan t.pieces idx count).survivors.length
        = (if idx ∈ prefixSums t.pieces then 0 else 1)
          + (if idx + count ∈ prefixSums t.pieces then 0 else 1)) := by
  have hrlen : ∀ h : range ≠ [], 0 < range.length :=
    fun h => List.length_pos.mpr h
  constructor
  · intro hr hidxle
    by_cases hsize : idx = t.size
    · refine ⟨?_, fun hlt _ => absurd hsize (by omega)⟩
      intro nd hnd
      simp only [PieceTable.insert_range_at, if_pos hsize] at hnd
      rcases List.mem_append.1 hnd with h1 | h2
      · exact hpos _ h1
      · simp only [List.mem_singleton] at h2
        subst h2
        exact hrlen hr
    · have hidxlt : idx < t.size := by omega
      have hidxlt' : idx < sumSizes t.pieces := hsz ▸ hidxlt
      have hzero := getPositionIdx_zero_iff t.pieces idx (by omega)
      by_cases hoff : (getPositionIdx t.pieces idx).1 = 0
      · refine ⟨?_, fun _ hnb => absurd (hzero.1 hoff) hnb⟩
        intro nd hnd
        simp only [PieceTable.insert_range_at, if_neg hsize,
          if_pos hoff] at hnd
        simp only [List.append_assoc, List.mem_append,
          List.mem_singleton] at hnd
        rcases hnd with h1 | h2 | h3
        · exact hpos _ (List.mem_of_mem_take h1)
        · subst h2
          exact hrlen hr
        · exact hpos _ (List.mem_of_mem_drop h3)
      · obtain ⟨n, hn, hofflt⟩ := getPositionIdx_get t.pieces idx hidxlt'
        have hi0lt := lt_length_of_getElem?_some hn
        have hshape := replacePieceRangeAt_pieces
          { t with append_buffer := t.append_buffer ++ range
                   size := t.size + range.length }
          (getPositionIdx t.pieces idx).2
          ((getPositionIdx t.pieces idx).2 + 1)
          [(split_piece_at (getPositionIdx t.pieces idx).1 n.piece).1,
           ⟨(t.append_buffer ++ range).length - range.length,
             range.length, true⟩,
           (split_piece_at (getPositionIdx t.pieces idx).1 n.piece).2]
          (by simpa using Nat.le_of_lt hi0lt)
        have hres : (t.insert_range_at idx range).1.pieces
            = t.pieces.take (getPositionIdx t.pieces idx).2
              ++ mkNodes t.next_id
                [(split_piece_at (getPositionIdx t.pieces idx).1 n.piece).1,
                 ⟨(t.append_buffer ++ range).length - range.length,
                   range.length, true⟩,
                 (split_piece_at (getPositionIdx t.pieces idx).1 n.piece).2]
              ++ t.pieces.drop ((getPositionIdx t.pieces idx).2 + 1) := by
          simp only [PieceTable.insert_range_at, if_neg hsize, if_neg hoff]
          rw [hn]
          dsimp only
          exact hshape
        constructor
        · intro nd hnd
          rw [hres] at hnd
          simp only [List.mem_append] at hnd
          rcases hnd with (h1 | h2) | h3
          · exact hpos _ (List.mem_of_mem_take h1)
          · have hmem := mem_mkNodes h2
            simp only [List.mem_cons, List.mem_singleton,
              List.not_mem_nil, or_false] at hmem
            rcases hmem with hmem | hmem | hmem
            · rw [hmem]
              simp only [split_piece_at]
              omega
            · rw [hmem]
              exact hrlen hr
            · rw [hmem]
              simp only [split_piece_at]
              omega
          · exact hpos _ (List.mem_of_mem_drop h3)
        · intro _ _
          rw [hres]
          have hmin : (getPositionIdx t.pieces idx).2 ≤ t.pieces.length :=
            Nat.le_of_lt hi0lt
          simp only [List.length_append, List.length_take, List.length_drop,
            length_mkNodes, List.length_cons, List.length_nil,
            Nat.min_eq_left hmin]
          omega
  · intro hcpos hcle
    have hle' : idx + count ≤ sumSizes t.pieces := hsz ▸ hcle
    obtain ⟨hsurv, hlen⟩ := delete_plan_spec t.pieces idx count hcpos hle'
    refine ⟨?_, hlen⟩
    have hrb : (delete_plan t.pieces idx count).range_begin
        ≤ t.pieces.length := by
      have : (delete_plan t.pieces idx count).range_begin
          = (getPositionIdx t.pieces idx).2 := rfl
      rw [this]
      exact getPositionIdx_le_length _ _
    have hshape := replacePieceRangeAt_pieces { t with size := t.size - count }
      (delete_plan t.pieces idx count).range_begin
      (delete_plan t.pieces idx count).range_fin
      (delete_plan t.pieces idx count).survivors hrb
    intro nd hnd
    rw [show (t.delete_range_at idx count).1.pieces
        = _ from hshape] at hnd
    simp only [List.mem_append] at hnd
    rcases hnd with (h1 | h2) | h3
    · exact hpos _ (List.mem_of_mem_take h1)
    · exact hsurv _ (mem_mkNodes h2)
    · exact hpos _ (List.mem_of_mem_drop h3)

/-- Witness for C5 on PieceTable("ab"): inserting "x" strictly inside
the single piece grows the sequence by two pieces, and deleting one
character starting strictly inside leaves exactly one survivor. -/
theorem c5_boundary_split_correctness_witness :
    ((∀ n ∈ tAB.pieces, 0 < n.piece.size) ∧
      tAB.size = sumSizes tAB.pieces) ∧
    (tAB.insert_range_at 1 ['x']).1.pieces.length = tAB.pieces.length + 2 ∧
    (delete_plan tAB.pieces 1 1).survivors.length = 1 := by
  have h := c5_boundary_split_correctness tAB 1 1 ['x'] (by decide) (by decide)
  refine ⟨⟨by decide, by decide⟩, ?_, ?_⟩
  · exact (h.1 (by decide) (by decide)).2 (by decide) (by decide)
  · have h2 := (h.2 (by decide) (by decide)).2
    rw [if_neg (by decide), if_pos (by decide)] at h2
    simpa using h2

end PieceTableSpec
